import Mathlib

/-!
# Verification of the go-querymap value-tree core

Shallow embedding of `pkg/querymap/querymap.go`:

* `Val` is the dynamic value universe: the Go code stores, under an `any`,
  one of `string`, `[]string`, `anyList` (`[]any`) and `QueryMap`
  (`map[string]any`); `Val.other` stands for any Go value outside these
  four shapes (for example `nil`), which the code only ever passes through.
* A Go `map[string]any` is modelled as an association list with (by use)
  unique keys; Go maps are unordered, and every theorem below either
  produces a canonical ordering explicitly (as the code itself does via
  `slices.Sort`) or is insensitive to entry order.
* Go raw keys are manipulated by byte index (`strings.IndexRune`,
  slicing); keys here are `List Char`, which agrees with the byte-level
  view on every bracket computation because `[` and `]` are one-byte
  runes and Go string comparison order coincides with code-point order
  on UTF-8 text.
* The one fallible spot (Go slicing `key[:n]` panics for `n < 0` or
  `n > len(key)`) is modelled by `Option`: `none` is a runtime panic.
-/

/-- Raw key text, one `Char` per rune. -/
abbrev Str := List Char

/-- The dynamic value universe of the Go code: `string`, `[]string`,
`anyList`, `QueryMap`, or any other Go value (`Val.other`, e.g. `nil`). -/
inductive Val where
  | str : String → Val
  | strs : List String → Val
  | list : List Val → Val
  | obj : List (Str × Val) → Val
  | other : Nat → Val

/-- `QueryMap` — a map of query parameters, as an association list. -/
abbrev QueryMap := List (Str × Val)

/-- Go map read `q[key]` (with the `ok` flag as `Option`). -/
def qmLookup : QueryMap → Str → Option Val
  | [], _ => none
  | (k, v) :: rest, key => if k = key then some v else qmLookup rest key

/-- Go map write `q[key] = v` for a key already present. -/
def qmReplace : QueryMap → Str → Val → QueryMap
  | [], _, _ => []
  | (k, v) :: rest, key, nv =>
      if k = key then (k, nv) :: rest else (k, v) :: qmReplace rest key nv

mutual

/-- The merge computed by `QueryMap.set` when `key` is already bound:
the body of the nested `switch` over (existing entry, incoming value) in
`querymap.go`.  Shapes outside the four cases fall through the `switch`
and leave the entry unchanged. -/
def mergeEntry : Val → Val → Val
  | .str e, .str i => .strs [e, i]
  | .str e, .strs i => .strs (e :: i)
  | .str e, .list i => .list (.str e :: i)
  | .str e, .obj i => .list [.str e, .obj i]
  | .str e, .other _ => .str e
  | .strs e, .str i => .strs (e ++ [i])
  | .strs e, .strs i => .strs (e ++ i)
  | .strs e, .list i => .list (e.map Val.str ++ i)
  | .strs e, .obj i => .list (e.map Val.str ++ [.obj i])
  | .strs e, .other _ => .strs e
  | .list e, .str i => .list (e ++ [.str i])
  | .list e, .strs i => .list (e ++ i.map Val.str)
  | .list e, .list i => .list (e ++ i)
  | .list e, .obj i => .list (e ++ [.obj i])
  | .list e, .other _ => .list e
  | .obj e, .str i => .list [.obj e, .str i]
  | .obj e, .strs i => .list (.obj e :: i.map Val.str)
  | .obj e, .list i => .list (.obj e :: i)
  | .obj e, .obj i => .obj (setAll e i)
  | .obj e, .other _ => .obj e
  | .other n, _ => .other n
termination_by e i => (sizeOf i, 0)
decreasing_by all_goals simp_wf <;> omega

/-- The `QueryMap + QueryMap` case of `set`: `entry.set(k, v)` for every
entry of the incoming map. -/
def setAll : QueryMap → List (Str × Val) → QueryMap
  | q, [] => q
  | q, (k, v) :: rest => setAll (QueryMap.set q k v) rest
termination_by q l => (sizeOf l, 2)
decreasing_by all_goals simp_wf <;> omega

/-- `QueryMap.set` from `querymap.go`: store `v` under `key` if absent,
otherwise merge it into the existing entry. -/
def QueryMap.set (q : QueryMap) (key : Str) (v : Val) : QueryMap :=
  match qmLookup q key with
  | none => q ++ [(key, v)]
  | some e => qmReplace q key (mergeEntry e v)
termination_by (sizeOf v, 1)
decreasing_by all_goals simp_wf <;> omega

end

theorem set_absent (q : QueryMap) (k : Str) (v : Val) (h : qmLookup q k = none) :
    QueryMap.set q k v = q ++ [(k, v)] := by
  rw [QueryMap.set, h]

theorem set_present (q : QueryMap) (k : Str) (v e : Val) (h : qmLookup q k = some e) :
    QueryMap.set q k v = qmReplace q k (mergeEntry e v) := by
  rw [QueryMap.set, h]

/-- Go `strings.IndexRune`: position of the first occurrence of `c`, or `-1`. -/
def indexRune (c : Char) : Str → Int
  | [] => -1
  | x :: xs =>
      if x = c then 0
      else if indexRune c xs = -1 then -1 else indexRune c xs + 1

/-- Go slice `s[:n]`: `none` models the runtime panic when `n` is negative
or past the end of the string. -/
def sliceTo (s : Str) (n : Int) : Option Str :=
  if 0 ≤ n ∧ n ≤ (s.length : Int) then some (s.take n.toNat) else none

theorem indexRune_cases (c : Char) (s : Str) :
    indexRune c s = -1 ∨ (0 ≤ indexRune c s ∧ indexRune c s < (s.length : Int)) := by
  induction s with
  | nil => left; rfl
  | cons x xs ih =>
      by_cases hx : x = c
      · right; simp [indexRune, hx]
      · rcases ih with h | h
        · left; simp [indexRune, hx, h]
        · right
          have hne : indexRune c xs ≠ -1 := by omega
          simp only [indexRune, if_neg hx, if_neg hne, List.length_cons]
          push_cast
          omega

/-- `nestedQuery` from `querymap.go`: recursively parses a bracket key and
merges the value into `data`.  `none` models the Go panic `key[:nextEnd]`
with `nextEnd = -1`, reached when the first `[` of the key is at position
`0` and the key contains no `]`. -/
def nestedQuery (data : QueryMap) (key : Str) (value : List String) : Option QueryMap :=
  let nextStart := indexRune '[' key
  let nextEnd := indexRune ']' key
  let ckOpt : Option Str :=
    if nextStart = -1 ∧ nextEnd ≠ -1 ∧ (key.length : Int) = nextEnd + 1 then
      sliceTo key nextEnd
    else if nextStart ≠ -1 ∧ nextEnd ≠ -1 ∧ nextStart + 1 = nextEnd then
      sliceTo key nextStart
    else if nextEnd + 1 = nextStart then
      sliceTo key nextEnd
    else if nextStart ≠ -1 ∧ nextStart < nextEnd then
      sliceTo key nextStart
    else some key
  ckOpt.bind fun currentKey =>
    if (nextStart + 1 = nextEnd ∧ nextEnd + 1 = (key.length : Int)) ∨
        (nextEnd ≠ -1 ∧ nextStart > nextEnd ∧ key.drop nextStart.toNat = ['[', ']'] ∧
          nextStart + 2 = (key.length : Int)) then
      some (QueryMap.set data currentKey (.strs value))
    else if hs : nextStart ≠ -1 then
      (nestedQuery []
          (if nextEnd ≠ -1 ∧ nextEnd < nextStart then key.drop (nextEnd + 2).toNat
           else key.drop (nextStart + 1).toNat)
          value).map
        (fun sub => QueryMap.set data currentKey (.obj sub))
    else if value.length = 1 then
      some (QueryMap.set data currentKey (.str (value.headD "")))
    else
      some (QueryMap.set data currentKey (.strs value))
termination_by key.length
decreasing_by
  have h1 := indexRune_cases '[' key
  have h2 := indexRune_cases ']' key
  have hs' : indexRune '[' key ≠ -1 := hs
  split <;> simp only [List.length_drop] <;> omega

/-- Raw decoded query data: Go `url.Values`, an (unordered) map from raw
key to the ordered list of its raw values. -/
abbrev RawQuery := List (Str × List String)

/-- Go map read `urlQuery[key]` on `url.Values`. -/
def rawLookup : RawQuery → Str → Option (List String)
  | [], _ => none
  | (k, v) :: rest, key => if k = key then some v else rawLookup rest key

/-- Go `slices.Sort` over raw keys (ascending lexicographic order; on
`List Char` this coincides with Go's byte-wise string order). -/
def sortKeys (l : List Str) : List Str := l.insertionSort (· ≤ ·)

/-- The key loop of `FromValues`: each sorted raw key is fed through
`nestedQuery` against the shared root. -/
def ingestKeys (q : RawQuery) : QueryMap → List Str → Option QueryMap
  | d, [] => some d
  | d, k :: ks =>
      (nestedQuery d k ((rawLookup q k).getD [])).bind
        (fun d2 => ingestKeys q d2 ks)

/-- Success of Go `strconv.Atoi` (optional sign, decimal digits, within
the 64-bit `int` range). -/
def atoiOk (s : Str) : Bool :=
  let p : Bool × Str :=
    match s with
    | '+' :: rest => (false, rest)
    | '-' :: rest => (true, rest)
    | _ => (false, s)
  let av : Nat := p.2.foldl (fun a c => 10 * a + (c.toNat - '0'.toNat)) 0
  !p.2.isEmpty && p.2.all (·.isDigit) &&
    (if p.1 then decide (av ≤ 2 ^ 63) else decide (av ≤ 2 ^ 63 - 1))

/-- `NormalizeSlicesNumbersIndexes` from `querymap.go`: an object whose
keys all parse with `strconv.Atoi` is folded into an `anyList` of its
values in sorted (textual) key order; other objects and `anyList`s are
rewritten recursively; everything else is returned unchanged. -/
def NormalizeSlicesNumbersIndexes : Val → Val
  | .str s => .str s
  | .strs l => .strs l
  | .obj m =>
      if m.all (fun kv => atoiOk kv.1) then
        .list ((sortKeys (m.map Prod.fst)).filterMap (fun k => qmLookup m k))
      else
        .obj (m.attach.map (fun ⟨⟨k, v⟩, _⟩ => (k, NormalizeSlicesNumbersIndexes v)))
  | .list l => .list (l.attach.map (fun ⟨v, _⟩ => NormalizeSlicesNumbersIndexes v))
  | .other n => .other n
termination_by v => sizeOf v
decreasing_by
  · rename_i hmem
    have := List.sizeOf_lt_of_mem hmem
    simp only [Prod.mk.sizeOf_spec] at this
    simp only [Val.obj.sizeOf_spec]
    omega
  · rename_i hmem
    have := List.sizeOf_lt_of_mem hmem
    simp only [Val.list.sizeOf_spec]
    omega

/-- `FromValues` from `querymap.go` (also the whole of `FromURL` past the
out-of-scope `URL.Query()` decoding): ingest the raw keys in sorted order,
then normalize every top-level value. -/
def FromValues (q : RawQuery) : Option QueryMap :=
  (ingestKeys q [] (sortKeys (q.map Prod.fst))).map
    (fun data => data.map (fun kv => (kv.1, NormalizeSlicesNumbersIndexes kv.2)))


section NormalizerEquations

/-- `attach`-free description of a `map` over `attach`. -/
theorem attach_map_fst_snd {α β γ : Type} (l : List (α × β)) (f : β → γ) :
    (l.attach.map (fun x => (x.1.1, f x.1.2))) = l.map (fun kv => (kv.1, f kv.2)) := by
  have h : (fun (x : {p // p ∈ l}) => (x.1.1, f x.1.2)) =
      (fun kv => (kv.1, f kv.2)) ∘ Subtype.val := rfl
  rw [h, ← List.map_map, List.attach_map_subtype_val]

theorem attach_map_simple {α β : Type} (l : List α) (f : α → β) :
    (l.attach.map (fun x => f x.1)) = l.map f := by
  have h : (fun (x : {p // p ∈ l}) => f x.1) = f ∘ Subtype.val := rfl
  rw [h, ← List.map_map, List.attach_map_subtype_val]

theorem norm_str (s : String) :
    NormalizeSlicesNumbersIndexes (.str s) = .str s := by
  rw [NormalizeSlicesNumbersIndexes]

theorem norm_strs (l : List String) :
    NormalizeSlicesNumbersIndexes (.strs l) = .strs l := by
  rw [NormalizeSlicesNumbersIndexes]

theorem norm_other (n : Nat) :
    NormalizeSlicesNumbersIndexes (.other n) = .other n := by
  rw [NormalizeSlicesNumbersIndexes]

theorem norm_list (l : List Val) :
    NormalizeSlicesNumbersIndexes (.list l) =
      .list (l.map NormalizeSlicesNumbersIndexes) := by
  rw [NormalizeSlicesNumbersIndexes]
  rw [attach_map_simple l NormalizeSlicesNumbersIndexes]

theorem norm_obj (m : QueryMap) :
    NormalizeSlicesNumbersIndexes (.obj m) =
      if m.all (fun kv => atoiOk kv.1) then
        .list ((sortKeys (m.map Prod.fst)).filterMap (fun k => qmLookup m k))
      else
        .obj (m.map (fun kv => (kv.1, NormalizeSlicesNumbersIndexes kv.2))) := by
  rw [NormalizeSlicesNumbersIndexes]
  rcases h : m.all (fun kv => atoiOk kv.1) with _ | _
  · simp only [Bool.false_eq_true, if_false]
    rw [show (fun (x : {p // p ∈ m}) =>
          match x with
          | ⟨⟨k, v⟩, _⟩ => (k, NormalizeSlicesNumbersIndexes v)) =
        (fun x => (x.1.1, NormalizeSlicesNumbersIndexes x.1.2)) from by
      funext x; rcases x with ⟨⟨k, v⟩, _⟩; rfl]
    rw [attach_map_fst_snd]
  · simp only [if_true]

end NormalizerEquations


section SpecMergeEngine

mutual

/-- Modelled from the spec: the Merge Engine lattice from the table of
§4.2, one row per existing shape and one column per incoming shape
(`e` existing, `i` incoming, `…` splicing).  Shapes outside the spec's
four are outside the table and are left untouched here. -/
def specMerge : Val → Val → Val
  | .str e, .str i => .strs [e, i]
  | .str e, .strs i => .strs (e :: i)
  | .str e, .list i => .list (.str e :: i)
  | .str e, .obj i => .list [.str e, .obj i]
  | .strs e, .str i => .strs (e ++ [i])
  | .strs e, .strs i => .strs (e ++ i)
  | .strs e, .list i => .list (e.map Val.str ++ i)
  | .strs e, .obj i => .list (e.map Val.str ++ [.obj i])
  | .list e, .str i => .list (e ++ [.str i])
  | .list e, .strs i => .list (e ++ i.map Val.str)
  | .list e, .list i => .list (e ++ i)
  | .list e, .obj i => .list (e ++ [.obj i])
  | .obj e, .str i => .list [.obj e, .str i]
  | .obj e, .strs i => .list (.obj e :: i.map Val.str)
  | .obj e, .list i => .list (.obj e :: i)
  | .obj e, .obj i => .obj (specDeep e i)
  | e, _ => e
termination_by e i => (sizeOf i, 0)
decreasing_by all_goals simp_wf <;> omega

/-- Modelled from the spec: "deep-merge: for each key in `i`, recursively
apply this same Merge Engine into `e`". -/
def specDeep : QueryMap → List (Str × Val) → QueryMap
  | q, [] => q
  | q, (k, v) :: rest => specDeep (specSet q k v) rest
termination_by q l => (sizeOf l, 2)
decreasing_by all_goals simp_wf <;> omega

/-- Modelled from the spec: "If the key is absent, the new value is
stored as-is", otherwise the lattice result replaces the entry. -/
def specSet (q : QueryMap) (key : Str) (v : Val) : QueryMap :=
  match qmLookup q key with
  | none => q ++ [(key, v)]
  | some e => qmReplace q key (specMerge e v)
termination_by (sizeOf v, 1)
decreasing_by all_goals simp_wf <;> omega

end

mutual

theorem mergeEntry_eq_spec : ∀ e i : Val, mergeEntry e i = specMerge e i
  | .str _, .str _ => by rw [mergeEntry, specMerge]
  | .str _, .strs _ => by rw [mergeEntry, specMerge]
  | .str _, .list _ => by rw [mergeEntry, specMerge]
  | .str _, .obj _ => by rw [mergeEntry, specMerge]
  | .str _, .other _ => by simp [mergeEntry, specMerge] <;> (intros; simp_all)
  | .strs _, .str _ => by rw [mergeEntry, specMerge]
  | .strs _, .strs _ => by rw [mergeEntry, specMerge]
  | .strs _, .list _ => by rw [mergeEntry, specMerge]
  | .strs _, .obj _ => by rw [mergeEntry, specMerge]
  | .strs _, .other _ => by simp [mergeEntry, specMerge] <;> (intros; simp_all)
  | .list _, .str _ => by rw [mergeEntry, specMerge]
  | .list _, .strs _ => by rw [mergeEntry, specMerge]
  | .list _, .list _ => by rw [mergeEntry, specMerge]
  | .list _, .obj _ => by rw [mergeEntry, specMerge]
  | .list _, .other _ => by simp [mergeEntry, specMerge] <;> (intros; simp_all)
  | .obj e, .str i => by rw [mergeEntry, specMerge]
  | .obj e, .strs i => by rw [mergeEntry, specMerge]
  | .obj e, .list i => by rw [mergeEntry, specMerge]
  | .obj e, .obj i => by rw [mergeEntry, specMerge]; rw [setAll_eq_spec e i]
  | .obj e, .other _ => by simp [mergeEntry, specMerge] <;> (intros; simp_all)
  | .other _, .str _ => by simp [mergeEntry, specMerge] <;> (intros; simp_all)
  | .other _, .strs _ => by simp [mergeEntry, specMerge] <;> (intros; simp_all)
  | .other _, .list _ => by simp [mergeEntry, specMerge] <;> (intros; simp_all)
  | .other _, .obj _ => by simp [mergeEntry, specMerge] <;> (intros; simp_all)
  | .other _, .other _ => by simp [mergeEntry, specMerge] <;> (intros; simp_all)
termination_by e i => (sizeOf i, 0)
decreasing_by all_goals simp_wf <;> omega

theorem setAll_eq_spec : ∀ (q : QueryMap) (l : List (Str × Val)), setAll q l = specDeep q l
  | _, [] => by rw [setAll, specDeep]
  | q, (k, v) :: rest => by
      rw [setAll, specDeep, set_eq_spec q k v, setAll_eq_spec (specSet q k v) rest]
termination_by q l => (sizeOf l, 2)
decreasing_by all_goals simp_wf <;> omega

theorem set_eq_spec (q : QueryMap) (key : Str) (v : Val) :
    QueryMap.set q key v = specSet q key v := by
  rw [QueryMap.set, specSet]
  cases h : qmLookup q key with
  | none => rfl
  | some e => simp only []; rw [mergeEntry_eq_spec e v]
termination_by (sizeOf v, 1)
decreasing_by all_goals simp_wf <;> omega

end

end SpecMergeEngine


/-- C1: `QueryMap.set` stores an incoming value as-is when the key is
absent; otherwise it replaces the entry by the merge of (existing,
incoming), and that merge coincides with the spec's §4.2 lattice
(`specMerge`) on every combination of the four shapes — in particular it
is total (never fails). -/
theorem C1_set_follows_merge_lattice (q : QueryMap) (k : Str) (v : Val) :
    (qmLookup q k = none → QueryMap.set q k v = q ++ [(k, v)]) ∧
    (∀ e, qmLookup q k = some e →
      QueryMap.set q k v = qmReplace q k (mergeEntry e v)) ∧
    (∀ e i, mergeEntry e i = specMerge e i) := by
  refine ⟨?_, ?_, mergeEntry_eq_spec⟩
  · intro h
    rw [QueryMap.set, h]
  · intro e h
    rw [QueryMap.set, h]

/-- Witness for C1 at concrete inputs: an absent key stores as-is, and a
`string + string` collision produces the two-element `[]string`. -/
theorem C1_set_follows_merge_lattice_witness :
    QueryMap.set [] ['a'] (.str "x") = [(['a'], .str "x")] ∧
    QueryMap.set [(['a'], .str "e")] ['a'] (.str "i") =
      [(['a'], .strs ["e", "i"])] := by
  constructor
  · exact (C1_set_follows_merge_lattice [] ['a'] (.str "x")).1 rfl
  · rw [(C1_set_follows_merge_lattice [(['a'], .str "e")] ['a'] (.str "i")).2.1
      (.str "e") rfl]
    rw [show mergeEntry (.str "e") (.str "i") = .strs ["e", "i"] from by
      rw [mergeEntry]]
    rfl

section MapLemmas

theorem qmLookup_eq_none {m : QueryMap} {k : Str} (h : ∀ kv ∈ m, kv.1 ≠ k) :
    qmLookup m k = none := by
  induction m with
  | nil => rfl
  | cons kv rest ih =>
      obtain ⟨k1, v1⟩ := kv
      have hk : k1 ≠ k := h (k1, v1) (List.mem_cons_self _ _)
      simp only [qmLookup, if_neg hk]
      exact ih (fun kv hm => h kv (List.mem_cons_of_mem _ hm))

theorem qmLookup_mem {m : QueryMap} (hnd : (m.map Prod.fst).Nodup) {k : Str}
    {v : Val} (h : (k, v) ∈ m) : qmLookup m k = some v := by
  induction m with
  | nil => cases h
  | cons kv rest ih =>
      obtain ⟨k1, v1⟩ := kv
      rcases List.mem_cons.mp h with h1 | h1
      · obtain ⟨rfl, rfl⟩ := Prod.mk.injEq .. ▸ h1
        simp [qmLookup]
      · have hk : k1 ≠ k := by
          intro hk
          subst hk
          have : k1 ∈ rest.map Prod.fst := List.mem_map_of_mem Prod.fst h1
          simp only [List.map_cons, List.nodup_cons] at hnd
          exact hnd.1 this
        simp only [qmLookup, if_neg hk]
        exact ih (by simp only [List.map_cons, List.nodup_cons] at hnd; exact hnd.2) h1

theorem qmLookup_append (m1 m2 : QueryMap) (k : Str) :
    qmLookup (m1 ++ m2) k =
      match qmLookup m1 k with
      | none => qmLookup m2 k
      | some v => some v := by
  induction m1 with
  | nil => rfl
  | cons kv rest ih =>
      obtain ⟨k1, v1⟩ := kv
      by_cases hk : k1 = k
      · subst hk
        simp [qmLookup]
      · simp only [List.cons_append, qmLookup, if_neg hk]
        exact ih

theorem rawLookup_mem {m : RawQuery} (hnd : (m.map Prod.fst).Nodup) {k : Str}
    {v : List String} (h : (k, v) ∈ m) : rawLookup m k = some v := by
  induction m with
  | nil => cases h
  | cons kv rest ih =>
      obtain ⟨k1, v1⟩ := kv
      rcases List.mem_cons.mp h with h1 | h1
      · obtain ⟨rfl, rfl⟩ := Prod.mk.injEq .. ▸ h1
        simp [rawLookup]
      · have hk : k1 ≠ k := by
          intro hk
          subst hk
          have : k1 ∈ rest.map Prod.fst := List.mem_map_of_mem Prod.fst h1
          simp only [List.map_cons, List.nodup_cons] at hnd
          exact hnd.1 this
        simp only [rawLookup, if_neg hk]
        exact ih (by simp only [List.map_cons, List.nodup_cons] at hnd; exact hnd.2) h1

theorem rawLookup_perm {q1 q2 : RawQuery} (hp : q1.Perm q2)
    (hnd : (q1.map Prod.fst).Nodup) (k : Str) : rawLookup q1 k = rawLookup q2 k := by
  cases h : rawLookup q1 k with
  | none =>
      cases h2 : rawLookup q2 k with
      | none => rfl
      | some v =>
          exfalso
          have hmem : (k, v) ∈ q2 := by
            clear h hp hnd
            induction q2 with
            | nil => cases h2
            | cons kv rest ih =>
                obtain ⟨k1, v1⟩ := kv
                by_cases hk : k1 = k
                · subst hk
                  simp only [rawLookup, if_pos] at h2
                  obtain rfl := Option.some.injEq .. ▸ h2
                  exact List.mem_cons_self _ _
                · simp only [rawLookup, if_neg hk] at h2
                  exact List.mem_cons_of_mem _ (ih h2)
          have hmem1 : (k, v) ∈ q1 := hp.symm.subset hmem
          rw [rawLookup_mem hnd hmem1] at h
          cases h
  | some v =>
      have hmem : (k, v) ∈ q1 := by
        clear hp hnd
        induction q1 with
        | nil => cases h
        | cons kv rest ih =>
            obtain ⟨k1, v1⟩ := kv
            by_cases hk : k1 = k
            · subst hk
              simp only [rawLookup, if_pos] at h
              obtain rfl := Option.some.injEq .. ▸ h
              exact List.mem_cons_self _ _
            · simp only [rawLookup, if_neg hk] at h
              exact List.mem_cons_of_mem _ (ih h)
      have hnd2 : (q2.map Prod.fst).Nodup := (hp.map Prod.fst).nodup_iff.mp hnd
      rw [rawLookup_mem hnd2 (hp.subset hmem)]

theorem sortKeys_sorted (l : List Str) : List.Sorted (· ≤ ·) (sortKeys l) :=
  List.sorted_insertionSort _ l

theorem sortKeys_eq_of_perm {l1 l2 : List Str} (h : l1.Perm l2) :
    sortKeys l1 = sortKeys l2 :=
  List.eq_of_perm_of_sorted
    ((List.perm_insertionSort _ l1).trans (h.trans (List.perm_insertionSort _ l2).symm))
    (sortKeys_sorted l1) (sortKeys_sorted l2)

end MapLemmas


section SortBridge

instance : DecidableRel (fun a b : Str × Val => a.1 ≤ b.1) :=
  fun a b => inferInstanceAs (Decidable (a.1 ≤ b.1))

theorem sortPairs_map_fst (m : QueryMap) :
    ((m.insertionSort (fun a b => a.1 ≤ b.1)).map Prod.fst) =
      sortKeys (m.map Prod.fst) :=
  List.map_insertionSort _ _ Prod.fst m (fun _ _ _ _ => Iff.rfl)

theorem filterMap_lookup_of_mem (m : QueryMap) (L : List (Str × Val))
    (h : ∀ p ∈ L, qmLookup m p.1 = some p.2) :
    (L.map Prod.fst).filterMap (fun k => qmLookup m k) = L.map Prod.snd := by
  induction L with
  | nil => rfl
  | cons p rest ih =>
      simp only [List.map_cons, List.filterMap_cons, h p (List.mem_cons_self _ _)]
      rw [ih (fun p hp => h p (List.mem_cons_of_mem _ hp))]

end SortBridge

/-- C3: a non-empty object all of whose keys parse with `strconv.Atoi` is
folded into an `anyList` of its values ordered by textual (lexicographic)
key comparison — in particular the value under `"10"` comes before the
value under `"2"`. -/
theorem C3_numeric_object_folds_to_list (m : QueryMap) (hne : m ≠ [])
    (hnum : m.all (fun kv => atoiOk kv.1) = true)
    (hnd : (m.map Prod.fst).Nodup) :
    NormalizeSlicesNumbersIndexes (.obj m) =
      .list ((m.insertionSort (fun a b => a.1 ≤ b.1)).map Prod.snd) ∧
    NormalizeSlicesNumbersIndexes
        (.obj [("10".data, .str "a"), ("2".data, .str "b")]) =
      .list [.str "a", .str "b"] := by
  constructor
  · rw [norm_obj, if_pos hnum, ← sortPairs_map_fst m,
      filterMap_lookup_of_mem m _ (fun p hp =>
        qmLookup_mem hnd ((List.mem_insertionSort _).mp hp))]
  · rw [norm_obj]
    simp [atoiOk, sortKeys, List.insertionSort, List.orderedInsert, qmLookup,
      List.filterMap_cons, show (['1', '0'] : Str) ≤ ['2'] from by decide]

/-- Witness for C3: the two-key all-numeric object with keys `"10"` and
`"2"`, evaluated through the theorem. -/
theorem C3_numeric_object_folds_to_list_witness :
    NormalizeSlicesNumbersIndexes
        (.obj [("10".data, .str "a"), ("2".data, .str "b")]) =
      .list [.str "a", .str "b"] :=
  (C3_numeric_object_folds_to_list [("10".data, .str "a"), ("2".data, .str "b")]
    (by simp) (by decide) (by decide)).2

/-- C4 counterexample: the code folds the *empty* object into an empty
`anyList` (the all-numeric check holds vacuously), so the result is not
an Object at all. -/
theorem C4_counterexample :
    NormalizeSlicesNumbersIndexes (.obj []) = .list [] ∧
    Val.list [] ≠ Val.obj [] := by
  refine ⟨by rw [norm_obj]; simp [sortKeys, List.insertionSort], fun h => ?_⟩
  cases h

/-- C4 (amended): an object with at least one key that `strconv.Atoi`
rejects is kept as an Object with the same key list and every value
recursively normalized. -/
theorem C4_nonnumeric_object_stays_object (m : QueryMap)
    (h : m.all (fun kv => atoiOk kv.1) = false) :
    NormalizeSlicesNumbersIndexes (.obj m) =
      .obj (m.map (fun kv => (kv.1, NormalizeSlicesNumbersIndexes kv.2))) := by
  rw [norm_obj, h]
  simp

/-- Witness for C4's amended theorem at a one-key non-numeric object. -/
theorem C4_nonnumeric_object_stays_object_witness :
    NormalizeSlicesNumbersIndexes (.obj [(['a'], .str "x")]) =
      .obj [(['a'], .str "x")] := by
  rw [C4_nonnumeric_object_stays_object [(['a'], .str "x")] (by decide)]
  simp [norm_str]

section NumFoldFree

/-- `v` contains no object whose keys all parse with `strconv.Atoi`
(the shape on which the normalizer's fold fires — vacuously including
the empty object). -/
def numFoldFree : Val → Bool
  | .str _ => true
  | .strs _ => true
  | .other _ => true
  | .list l => l.attach.all (fun ⟨v, _⟩ => numFoldFree v)
  | .obj m =>
      !(m.all (fun kv => atoiOk kv.1)) &&
        m.attach.all (fun ⟨⟨_, v⟩, _⟩ => numFoldFree v)
termination_by v => sizeOf v
decreasing_by
  · rename_i hmem
    have := List.sizeOf_lt_of_mem hmem
    simp only [Val.list.sizeOf_spec]
    omega
  · rename_i hmem
    have := List.sizeOf_lt_of_mem hmem
    simp only [Prod.mk.sizeOf_spec] at this
    simp only [Val.obj.sizeOf_spec]
    omega

theorem numFoldFree_list_iff (l : List Val) :
    numFoldFree (.list l) = true ↔ ∀ v ∈ l, numFoldFree v = true := by
  rw [numFoldFree]
  simp [List.all_eq_true, Subtype.forall]

theorem numFoldFree_obj_iff (m : QueryMap) :
    numFoldFree (.obj m) = true ↔
      (m.all (fun kv => atoiOk kv.1) = false ∧
        ∀ kv ∈ m, numFoldFree kv.2 = true) := by
  rw [numFoldFree]
  rw [Bool.and_eq_true, Bool.not_eq_true']
  constructor
  · rintro ⟨h1, h2⟩
    refine ⟨h1, fun kv hm => ?_⟩
    obtain ⟨k, v⟩ := kv
    exact List.all_eq_true.mp h2 ⟨(k, v), hm⟩ (List.mem_attach m _)
  · rintro ⟨h1, h2⟩
    refine ⟨h1, List.all_eq_true.mpr fun x _ => ?_⟩
    obtain ⟨⟨k, v⟩, hm⟩ := x
    exact h2 (k, v) hm

/-- On trees with no all-numeric-keyed object the normalizer is the
identity. -/
theorem norm_id : ∀ (v : Val), numFoldFree v = true →
    NormalizeSlicesNumbersIndexes v = v
  | .str s, _ => norm_str s
  | .strs l, _ => norm_strs l
  | .other n, _ => norm_other n
  | .list l, h => by
      rw [norm_list]
      have hall := (numFoldFree_list_iff l).mp h
      have hmap : l.map NormalizeSlicesNumbersIndexes = l.map id :=
        List.map_congr_left (fun v hv => norm_id v (hall v hv))
      rw [hmap, List.map_id]
  | .obj m, h => by
      rw [norm_obj]
      obtain ⟨hfalse, hall⟩ := (numFoldFree_obj_iff m).mp h
      rw [hfalse]
      simp only [Bool.false_eq_true, if_false]
      have hmap : m.map (fun kv => (kv.1, NormalizeSlicesNumbersIndexes kv.2)) =
          m.map id :=
        List.map_congr_left (fun kv hkv => by
          rw [norm_id kv.2 (hall kv hkv)]
          rfl)
      rw [hmap, List.map_id]
termination_by v _ => sizeOf v
decreasing_by
  · have := List.sizeOf_lt_of_mem hv
    simp only [Val.list.sizeOf_spec]
    omega
  · obtain ⟨k, v⟩ := kv
    have := List.sizeOf_lt_of_mem hkv
    simp only [Prod.mk.sizeOf_spec] at this
    simp only [Val.obj.sizeOf_spec]
    omega

end NumFoldFree

/-- C2 counterexample: normalization is not idempotent — a numeric-keyed
object nested inside a numeric-keyed object is folded but its value is
not normalized, so a second pass rewrites further. -/
theorem C2_counterexample :
    NormalizeSlicesNumbersIndexes (NormalizeSlicesNumbersIndexes
        (.obj [(['0'], .obj [(['0'], .str "x")])])) ≠
      NormalizeSlicesNumbersIndexes (.obj [(['0'], .obj [(['0'], .str "x")])]) := by
  simp [NormalizeSlicesNumbersIndexes, atoiOk, sortKeys, List.insertionSort,
    List.orderedInsert, qmLookup]

/-- C2 (amended): on every tree that contains no all-numeric-keyed
object the pass is the identity, hence idempotent there. -/
theorem C2_idempotent_on_numfold_free (v : Val) (h : numFoldFree v = true) :
    NormalizeSlicesNumbersIndexes (NormalizeSlicesNumbersIndexes v) =
      NormalizeSlicesNumbersIndexes v := by
  rw [norm_id v h, norm_id v h]

/-- Witness for C2's amended theorem. -/
theorem C2_idempotent_on_numfold_free_witness :
    numFoldFree (.obj [(['a'], .str "x")]) = true ∧
    NormalizeSlicesNumbersIndexes (NormalizeSlicesNumbersIndexes
        (.obj [(['a'], .str "x")])) =
      NormalizeSlicesNumbersIndexes (.obj [(['a'], .str "x")]) := by
  have h : numFoldFree (.obj [(['a'], .str "x")]) = true := by
    simp [numFoldFree, atoiOk]
  exact ⟨h, C2_idempotent_on_numfold_free _ h⟩

/-- C10: any value outside the four tree shapes (modelled by `Val.other`,
covering `nil` and every other Go value) is returned unchanged by
`NormalizeSlicesNumbersIndexes`. -/
theorem C10_other_values_unchanged (n : Nat) :
    NormalizeSlicesNumbersIndexes (.other n) = .other n :=
  norm_other n


section PipelineDeterminism

theorem ingestKeys_congr (q1 q2 : RawQuery)
    (h : ∀ k, rawLookup q1 k = rawLookup q2 k) (d : QueryMap) (ks : List Str) :
    ingestKeys q1 d ks = ingestKeys q2 d ks := by
  induction ks generalizing d with
  | nil => rfl
  | cons k rest ih =>
      simp only [ingestKeys, h k]
      cases nestedQuery d k ((rawLookup q2 k).getD []) with
      | none => rfl
      | some d2 => simp only [Option.some_bind]; exact ih d2

end PipelineDeterminism

/-- C5: `FromValues` sorts the raw keys before ingesting, so its result
is a function of the key-to-values mapping alone (invariant under
permutation of the entries); and the merge order fixed by that sort makes
`b[]=1&b=2` yield `{"b": ["2","1"]}` while `b=1&b[]=2` yields
`{"b": ["1","2"]}`, because `"b"` sorts before `"b[]"` and becomes the
existing side of the merge. -/
theorem C5_sorted_ingestion_deterministic (q1 q2 : RawQuery)
    (hnd : (q1.map Prod.fst).Nodup) (hp : q1.Perm q2) :
    FromValues q1 = FromValues q2 ∧
    FromValues [("b[]".data, ["1"]), ("b".data, ["2"])] =
      some [("b".data, .strs ["2", "1"])] ∧
    FromValues [("b".data, ["1"]), ("b[]".data, ["2"])] =
      some [("b".data, .strs ["1", "2"])] := by
  refine ⟨?_, ?_, ?_⟩
  · have hkeys : sortKeys (q1.map Prod.fst) = sortKeys (q2.map Prod.fst) :=
      sortKeys_eq_of_perm (hp.map Prod.fst)
    rw [FromValues, FromValues, hkeys,
      ingestKeys_congr q1 q2 (rawLookup_perm hp hnd) [] (sortKeys (q2.map Prod.fst))]
  · simp [FromValues, ingestKeys, sortKeys, List.insertionSort, List.orderedInsert,
      rawLookup, nestedQuery, indexRune, sliceTo, QueryMap.set, qmLookup, qmReplace,
      mergeEntry, NormalizeSlicesNumbersIndexes]
  · simp [FromValues, ingestKeys, sortKeys, List.insertionSort, List.orderedInsert,
      rawLookup, nestedQuery, indexRune, sliceTo, QueryMap.set, qmLookup, qmReplace,
      mergeEntry, NormalizeSlicesNumbersIndexes]

/-- Witness for C5: two entry orders of the same two-key mapping give the
same tree. -/
theorem C5_sorted_ingestion_deterministic_witness :
    (([("a".data, ["1"]), ("b".data, ["2"])] : RawQuery).map Prod.fst).Nodup ∧
    FromValues [("a".data, ["1"]), ("b".data, ["2"])] =
      FromValues [("b".data, ["2"]), ("a".data, ["1"])] :=
  ⟨by decide,
    (C5_sorted_ingestion_deterministic
      [("a".data, ["1"]), ("b".data, ["2"])]
      [("b".data, ["2"]), ("a".data, ["1"])]
      (by decide) (by decide)).1⟩

section KeyShapeLemmas

theorem indexRune_of_not_mem {c : Char} {s : Str} (h : c ∉ s) :
    indexRune c s = -1 := by
  induction s with
  | nil => rfl
  | cons x xs ih =>
      have hx : x ≠ c := fun hc => h (hc ▸ List.mem_cons_self x xs)
      rw [indexRune, if_neg hx, ih (fun hm => h (List.mem_cons_of_mem _ hm))]
      rw [if_pos rfl]

theorem indexRune_append {c : Char} {s1 : Str} (h : c ∉ s1) (s2 : Str) :
    indexRune c (s1 ++ s2) =
      if indexRune c s2 = -1 then -1 else (s1.length : Int) + indexRune c s2 := by
  induction s1 with
  | nil =>
      simp only [List.nil_append, List.length_nil]
      split <;> omega
  | cons x xs ih =>
      have hx : x ≠ c := fun hc => h (hc ▸ List.mem_cons_self x xs)
      rw [List.cons_append, indexRune, if_neg hx,
        ih (fun hm => h (List.mem_cons_of_mem _ hm))]
      rcases indexRune_cases c s2 with h2 | h2 <;>
        · simp only [List.length_cons]
          split_ifs <;> push_cast <;> omega

theorem nestedQuery_trailing_marker (name : Str)
    (h1 : '[' ∉ name) (h2 : ']' ∉ name) (data : QueryMap) (value : List String) :
    nestedQuery data (name ++ ['[', ']']) value =
      some (QueryMap.set data name (.strs value)) := by
  have hns : indexRune '[' (name ++ ['[', ']']) = (name.length : Int) := by
    rw [indexRune_append h1]
    norm_num [indexRune]
  have hne : indexRune ']' (name ++ ['[', ']']) = (name.length : Int) + 1 := by
    rw [indexRune_append h2]
    simp [indexRune]
  have hlen : ((name ++ ['[', ']']).length : Int) = (name.length : Int) + 2 := by
    simp
  have c1 : ¬((name.length : Int) = -1 ∧ (name.length : Int) + 1 ≠ -1 ∧
      (name.length : Int) + 2 = (name.length : Int) + 1 + 1) := by
    rintro ⟨ha, -⟩
    omega
  have c2 : ((name.length : Int) ≠ -1 ∧ (name.length : Int) + 1 ≠ -1 ∧ True) :=
    ⟨by omega, by omega, trivial⟩
  rw [nestedQuery]
  simp only [hns, hne, hlen]
  rw [if_neg c1, if_pos c2, sliceTo]
  have c3 : (0 ≤ (name.length : Int) ∧
      (name.length : Int) ≤ ((name ++ ['[', ']']).length : Int)) :=
    ⟨by omega, by rw [hlen]; omega⟩
  rw [if_pos c3]
  simp only [Int.toNat_natCast, List.take_left, Option.some_bind]
  have c4 : (True ∧ (name.length : Int) + 1 + 1 = (name.length : Int) + 2 ∨
      ((name.length : Int) + 1 ≠ -1 ∧ (name.length : Int) > (name.length : Int) + 1 ∧
        List.drop name.length (name ++ ['[', ']']) = ['[', ']'] ∧ True)) :=
    Or.inl ⟨trivial, by omega⟩
  rw [if_pos c4]


theorem nestedQuery_bracket_flip (b : Str) (hb1 : '[' ∉ b) (hb2 : ']' ∉ b)
    (data : QueryMap) (value : List String) :
    nestedQuery data (b ++ [']', '[', ']']) value =
      some (QueryMap.set data b (.strs value)) := by
  have hns : indexRune '[' (b ++ [']', '[', ']']) = (b.length : Int) + 1 := by
    rw [indexRune_append hb1]
    simp [indexRune]
  have hne : indexRune ']' (b ++ [']', '[', ']']) = (b.length : Int) := by
    rw [indexRune_append hb2]
    simp [indexRune]
  have hlen : ((b ++ [']', '[', ']']).length : Int) = (b.length : Int) + 3 := by
    simp
  rw [nestedQuery]
  rw [hns, hne, hlen]
  rw [if_neg (by rintro ⟨hc, -⟩; omega :
    ¬((b.length : Int) + 1 = -1 ∧ (b.length : Int) ≠ -1 ∧
      (b.length : Int) + 3 = (b.length : Int) + 1))]
  rw [if_neg (by rintro ⟨-, -, hc⟩; omega :
    ¬((b.length : Int) + 1 ≠ -1 ∧ (b.length : Int) ≠ -1 ∧
      (b.length : Int) + 1 + 1 = (b.length : Int)))]
  rw [if_pos (by omega : (b.length : Int) + 1 = (b.length : Int) + 1)]
  rw [sliceTo, if_pos (⟨by omega, by omega⟩ :
    (0 ≤ (b.length : Int) ∧ (b.length : Int) ≤ ((b ++ [']', '[', ']']).length : Int)))]
  simp only [Int.toNat_natCast, List.take_left, Option.some_bind]
  have hdrop : List.drop ((b.length : Int) + 1).toNat (b ++ [']', '[', ']']) =
      ['[', ']'] := by
    rw [show ((b.length : Int) + 1).toNat = (b ++ [']']).length by simp]
    rw [show b ++ [']', '[', ']'] = (b ++ [']']) ++ ['[', ']'] by simp]
    exact List.drop_left _ _
  rw [if_pos (Or.inr ⟨by omega, by omega, hdrop, by omega⟩ :
    ((b.length : Int) + 1 + 1 = (b.length : Int) ∧
        (b.length : Int) + 1 = (b.length : Int) + 3 ∨
      ((b.length : Int) ≠ -1 ∧ (b.length : Int) + 1 > (b.length : Int) ∧
        List.drop ((b.length : Int) + 1).toNat (b ++ [']', '[', ']']) = ['[', ']'] ∧
        (b.length : Int) + 1 + 2 = (b.length : Int) + 3)))]


theorem nestedQuery_nested_marker (a b : Str) (ha1 : '[' ∉ a) (ha2 : ']' ∉ a)
    (hb1 : '[' ∉ b) (hb2 : ']' ∉ b) (hbne : b ≠ [])
    (data : QueryMap) (value : List String) :
    nestedQuery data (a ++ '[' :: (b ++ [']', '[', ']'])) value =
      some (QueryMap.set data a (.obj (QueryMap.set [] b (.strs value)))) := by
  have hbpos : 0 < b.length := List.length_pos.mpr hbne
  have hns : indexRune '[' (a ++ '[' :: (b ++ [']', '[', ']'])) = (a.length : Int) := by
    rw [indexRune_append ha1]
    simp [indexRune]
  have hinner : indexRune ']' ('[' :: (b ++ [']', '[', ']'])) = (b.length : Int) + 1 := by
    rw [indexRune, if_neg (by decide)]
    rw [show indexRune ']' (b ++ [']', '[', ']']) = (b.length : Int) by
      rw [indexRune_append hb2]; simp [indexRune]]
    rw [if_neg (by omega)]
  have hne : indexRune ']' (a ++ '[' :: (b ++ [']', '[', ']'])) =
      (a.length : Int) + ((b.length : Int) + 1) := by
    rw [indexRune_append ha2, hinner, if_neg (by omega)]
  have hlen : (((a ++ '[' :: (b ++ [']', '[', ']'])).length : Int)) =
      (a.length : Int) + (b.length : Int) + 4 := by
    simp only [List.length_append, List.length_cons, List.length_nil]
    push_cast
    ring
  rw [nestedQuery]
  rw [hns, hne, hlen]
  rw [if_neg (by rintro ⟨hc, -⟩; omega :
    ¬((a.length : Int) = -1 ∧ (a.length : Int) + ((b.length : Int) + 1) ≠ -1 ∧
      (a.length : Int) + (b.length : Int) + 4 =
        (a.length : Int) + ((b.length : Int) + 1) + 1))]
  rw [if_neg (by rintro ⟨-, -, hc⟩; omega :
    ¬((a.length : Int) ≠ -1 ∧ (a.length : Int) + ((b.length : Int) + 1) ≠ -1 ∧
      (a.length : Int) + 1 = (a.length : Int) + ((b.length : Int) + 1)))]
  rw [if_neg (by omega :
    ¬((a.length : Int) + ((b.length : Int) + 1) + 1 = (a.length : Int)))]
  rw [if_pos (⟨by omega, by omega⟩ :
    ((a.length : Int) ≠ -1 ∧
      (a.length : Int) < (a.length : Int) + ((b.length : Int) + 1)))]
  rw [sliceTo, if_pos (⟨by omega, by omega⟩ :
    (0 ≤ (a.length : Int) ∧
      (a.length : Int) ≤ ((a ++ '[' :: (b ++ [']', '[', ']'])).length : Int)))]
  simp only [Int.toNat_natCast, List.take_left, Option.some_bind]
  rw [if_neg (by rintro (⟨hc, -⟩ | ⟨-, hc, -⟩) <;> omega :
    ¬((a.length : Int) + 1 = (a.length : Int) + ((b.length : Int) + 1) ∧
        (a.length : Int) + ((b.length : Int) + 1) + 1 =
          (a.length : Int) + (b.length : Int) + 4 ∨
      ((a.length : Int) + ((b.length : Int) + 1) ≠ -1 ∧
        (a.length : Int) > (a.length : Int) + ((b.length : Int) + 1) ∧
        List.drop a.length (a ++ '[' :: (b ++ [']', '[', ']'])) = ['[', ']'] ∧
        (a.length : Int) + 2 = (a.length : Int) + (b.length : Int) + 4)))]
  rw [dif_pos (by omega : ((a.length : Int) ≠ -1))]
  rw [if_neg (by rintro ⟨-, hc⟩; omega :
    ¬((a.length : Int) + ((b.length : Int) + 1) ≠ -1 ∧
      (a.length : Int) + ((b.length : Int) + 1) < (a.length : Int)))]
  rw [show List.drop ((a.length : Int) + 1).toNat (a ++ '[' :: (b ++ [']', '[', ']'])) =
      b ++ [']', '[', ']'] by
    rw [show ((a.length : Int) + 1).toNat = (a ++ ['[']).length by simp]
    rw [show a ++ '[' :: (b ++ [']', '[', ']']) =
      (a ++ ['[']) ++ (b ++ [']', '[', ']']) by simp]
    exact List.drop_left _ _]
  rw [nestedQuery_bracket_flip b hb1 hb2 [] value]
  rfl


theorem nestedQuery_plain (name : Str) (h1 : '[' ∉ name) (h2 : ']' ∉ name)
    (data : QueryMap) (value : List String) :
    nestedQuery data name value =
      some (QueryMap.set data name
        (if value.length = 1 then .str (value.headD "") else .strs value)) := by
  rw [nestedQuery]
  rw [indexRune_of_not_mem h1, indexRune_of_not_mem h2]
  rw [if_neg (by rintro ⟨-, hb, -⟩; exact hb rfl :
    ¬((-1 : Int) = -1 ∧ (-1 : Int) ≠ -1 ∧ (name.length : Int) = -1 + 1))]
  rw [if_neg (by rintro ⟨hb, -⟩; exact hb rfl :
    ¬((-1 : Int) ≠ -1 ∧ (-1 : Int) ≠ -1 ∧ (-1 : Int) + 1 = -1))]
  rw [if_neg (by omega : ¬((-1 : Int) + 1 = -1))]
  rw [if_neg (by rintro ⟨hb, -⟩; exact hb rfl : ¬((-1 : Int) ≠ -1 ∧ (-1 : Int) < -1))]
  simp only [Option.some_bind]
  rw [if_neg (by rintro (⟨hc, -⟩ | ⟨hc, -⟩) <;> omega :
    ¬((-1 : Int) + 1 = -1 ∧ (-1 : Int) + 1 = (name.length : Int) ∨
      ((-1 : Int) ≠ -1 ∧ (-1 : Int) > -1 ∧
        List.drop ((-1 : Int)).toNat name = ['[', ']'] ∧
        (-1 : Int) + 2 = (name.length : Int))))]
  rw [dif_neg (by omega : ¬((-1 : Int) ≠ -1))]
  by_cases hv : value.length = 1
  · rw [if_pos hv, if_pos hv]
  · rw [if_neg hv, if_neg hv]

end KeyShapeLemmas


/-- C6: an empty bracket group that ends the key (directly, `name[]`, or
after one nested segment, `a[b][]`) stores the raw value list as a flat
`[]string` at that path; a mid-key append marker gets no list semantics —
`names[][firstName]=John` decodes to a nested object under the literal
empty-string key, not to a one-element list. -/
theorem C6_append_marker_final_only (name a b : Str) (data : QueryMap)
    (value : List String)
    (hn1 : '[' ∉ name) (hn2 : ']' ∉ name)
    (ha1 : '[' ∉ a) (ha2 : ']' ∉ a)
    (hb1 : '[' ∉ b) (hb2 : ']' ∉ b) (hbne : b ≠ []) :
    nestedQuery data (name ++ ['[', ']']) value =
      some (QueryMap.set data name (.strs value)) ∧
    nestedQuery data (a ++ '[' :: (b ++ [']', '[', ']'])) value =
      some (QueryMap.set data a (.obj (QueryMap.set [] b (.strs value)))) ∧
    FromValues [("names[][firstName]".data, ["John"])] =
      some [("names".data, .obj [([], .obj [("firstName".data, .str "John")])])] :=
  ⟨nestedQuery_trailing_marker name hn1 hn2 data value,
   nestedQuery_nested_marker a b ha1 ha2 hb1 hb2 hbne data value,
   by simp [FromValues, ingestKeys, sortKeys, List.insertionSort, List.orderedInsert,
      rawLookup, nestedQuery, indexRune, sliceTo, QueryMap.set, qmLookup, qmReplace,
      mergeEntry, NormalizeSlicesNumbersIndexes, atoiOk]⟩

/-- Witness for C6 at concrete keys `n[]` and `a[b][]`. -/
theorem C6_append_marker_final_only_witness :
    ('[' ∉ "n".data ∧ "b".data ≠ ([] : Str)) ∧
    nestedQuery [] ("n".data ++ ['[', ']']) ["1"] =
      some (QueryMap.set [] "n".data (.strs ["1"])) ∧
    nestedQuery [] ("a".data ++ '[' :: ("b".data ++ [']', '[', ']'])) ["1"] =
      some (QueryMap.set [] "a".data
        (.obj (QueryMap.set [] "b".data (.strs ["1"])))) := by
  have h := C6_append_marker_final_only "n".data "a".data "b".data [] ["1"]
    (by decide) (by decide) (by decide) (by decide) (by decide) (by decide) (by decide)
  exact ⟨⟨by decide, by decide⟩, h.1, h.2.1⟩

/-- C8 (failing input): on the raw key `"[b"` — an opening bracket at
position 0 with no closing bracket anywhere — the pipeline panics (Go
slices `key[:nextEnd]` with `nextEnd = -1`), so `FromValues`/`FromURL`
does fail.  `none` is the embedded image of that runtime panic. -/
theorem C8_pipeline_panics_on_leading_bracket :
    FromValues [("[b".data, ["1"])] = none ∧
    nestedQuery [] "[b".data ["1"] = none := by
  constructor
  · simp [FromValues, ingestKeys, sortKeys, List.insertionSort, rawLookup,
      nestedQuery, indexRune, sliceTo]
  · simp [nestedQuery, indexRune, sliceTo]

/-- C9: the tolerated side and the failing side of unmatched brackets.
`"a[b"` parses without failure — the whole unmatched-bracket text stays
as a literal key, with the post-bracket remainder additionally parsed as
a nested key beneath it — but `"[b"` makes the parser panic. -/
theorem C9_unmatched_bracket_behaviour :
    nestedQuery [] "a[b".data ["1"] =
      some [("a[b".data, .obj [("b".data, .str "1")])] ∧
    nestedQuery [] "[b".data ["1"] = none := by
  constructor
  · simp [nestedQuery, indexRune, sliceTo, QueryMap.set, qmLookup]
  · simp [nestedQuery, indexRune, sliceTo]


section PlainPipeline

instance : DecidableRel (fun a b : Str × List String => a.1 ≤ b.1) :=
  fun a b => inferInstanceAs (Decidable (a.1 ≤ b.1))

theorem sortRaw_map_fst (q : RawQuery) :
    ((q.insertionSort (fun a b => a.1 ≤ b.1)).map Prod.fst) =
      sortKeys (q.map Prod.fst) :=
  List.map_insertionSort _ _ Prod.fst q (fun _ _ _ _ => Iff.rfl)

theorem ingestKeys_plain (q : RawQuery) (L : RawQuery) :
    ∀ (d : QueryMap),
      (∀ kv ∈ L, rawLookup q kv.1 = some kv.2) →
      (∀ kv ∈ L, ('[' ∉ kv.1 ∧ ']' ∉ kv.1) ∧ kv.2.length = 1) →
      ((L.map Prod.fst).Nodup) →
      (∀ kv ∈ L, qmLookup d kv.1 = none) →
      ingestKeys q d (L.map Prod.fst) =
        some (d ++ L.map (fun kv => (kv.1, Val.str (kv.2.headD "")))) := by
  induction L with
  | nil =>
      intro d _ _ _ _
      simp [ingestKeys]
  | cons kv rest ih =>
      intro d hlook hshape hnd habs
      obtain ⟨⟨hk1, hk2⟩, hk3⟩ := hshape kv (List.mem_cons_self _ _)
      rw [List.map_cons, ingestKeys, hlook kv (List.mem_cons_self _ _)]
      simp only [Option.getD_some]
      rw [nestedQuery_plain kv.1 hk1 hk2 d kv.2, if_pos hk3, Option.some_bind]
      rw [set_absent d kv.1 _ (habs kv (List.mem_cons_self _ _))]
      have hnd' : (rest.map Prod.fst).Nodup := by
        simp only [List.map_cons, List.nodup_cons] at hnd
        exact hnd.2
      have hknotin : kv.1 ∉ rest.map Prod.fst := by
        simp only [List.map_cons, List.nodup_cons] at hnd
        exact hnd.1
      rw [ih (d ++ [(kv.1, Val.str (kv.2.headD ""))])
        (fun p hp => hlook p (List.mem_cons_of_mem _ hp))
        (fun p hp => hshape p (List.mem_cons_of_mem _ hp))
        hnd'
        (fun p hp => by
          rw [qmLookup_append]
          rw [habs p (List.mem_cons_of_mem _ hp)]
          have hne : p.1 ≠ kv.1 := by
            intro he
            exact hknotin (he ▸ List.mem_map_of_mem Prod.fst hp)
          simp [qmLookup, if_neg (Ne.symm hne)])]
      simp

end PlainPipeline

/-- C7: a fully consumed (bracket-free) key stores a single associated
raw value as a `string` Scalar and several values directly as a
`[]string`; consequently a raw query with bracket-free, duplicate-free
keys and one value per key produces exactly the map from each raw key to
its single string (in sorted key order). -/
theorem C7_scalar_and_scalarlist_leaves (name : Str) (data : QueryMap)
    (value : List String) (q : RawQuery)
    (h1 : '[' ∉ name) (h2 : ']' ∉ name)
    (hnd : (q.map Prod.fst).Nodup)
    (hq : ∀ kv ∈ q, ('[' ∉ kv.1 ∧ ']' ∉ kv.1) ∧ kv.2.length = 1) :
    (value.length = 1 →
      nestedQuery data name value =
        some (QueryMap.set data name (.str (value.headD "")))) ∧
    (2 ≤ value.length →
      nestedQuery data name value =
        some (QueryMap.set data name (.strs value))) ∧
    FromValues q =
      some ((q.insertionSort (fun a b => a.1 ≤ b.1)).map
        (fun kv => (kv.1, Val.str (kv.2.headD "")))) := by
  refine ⟨?_, ?_, ?_⟩
  · intro hv
    rw [nestedQuery_plain name h1 h2 data value, if_pos hv]
  · intro hv
    rw [nestedQuery_plain name h1 h2 data value, if_neg (by omega)]
  · have hperm : (q.insertionSort (fun a b => a.1 ≤ b.1)).Perm q :=
      List.perm_insertionSort _ q
    have hnds : ((q.insertionSort (fun a b => a.1 ≤ b.1)).map Prod.fst).Nodup :=
      ((hperm.map Prod.fst).nodup_iff).mpr hnd
    rw [FromValues, ← sortRaw_map_fst q,
      ingestKeys_plain q (q.insertionSort (fun a b => a.1 ≤ b.1)) []
        (fun p hp => rawLookup_mem hnd (hperm.subset hp))
        (fun p hp => hq p (hperm.subset hp))
        hnds
        (fun p _ => rfl)]
    simp only [Option.map_some', List.nil_append, List.map_map]
    congr 1
    apply List.map_congr_left
    intro p _
    simp [Function.comp, norm_str]

/-- Witness for C7 at a one-key bracket-free query. -/
theorem C7_scalar_and_scalarlist_leaves_witness :
    ('[' ∉ "n".data ∧ (["x"] : List String).length = 1) ∧
    nestedQuery [] "n".data ["x"] =
      some (QueryMap.set [] "n".data (.str "x")) ∧
    FromValues [("k".data, ["v"])] =
      some ((([("k".data, ["v"])] : RawQuery).insertionSort
          (fun a b => a.1 ≤ b.1)).map
        (fun kv => (kv.1, Val.str (kv.2.headD "")))) := by
  have h := C7_scalar_and_scalarlist_leaves "n".data [] ["x"] [("k".data, ["v"])]
    (by decide) (by decide) (by decide)
    (by intro kv hm; simp at hm; subst hm; exact ⟨⟨by decide, by decide⟩, by decide⟩)
  exact ⟨⟨by decide, by decide⟩, h.1 (by decide), h.2.2⟩
